import Mathlib

/-!
A shallow embedding of the PDF export engine in `src/export/pdf.rs`
(`PdfExporter`, `PageExporter`, `Remapper`, `encode_image`, `encode_alpha`
and the structure-writing phase), together with theorems settling the
specification claims about it.

Modelling conventions:
* `f32`/`f64` quantities (lengths in points, em values, color components)
  are modelled as rationals `ℚ`; the claims under study concern the
  structure of the emitted operator stream, not float rounding.
* External library functions (DEFLATE, the `image` crate's `write_to`,
  the font subsetter, `Lang::dir`) are parameters of the embedding,
  mirroring the spec's "library dependency" interface view.
* Hash maps/sets are modelled by association lists or explicit lookup
  functions; a hash map's nondeterministic iteration order is modelled by
  quantifying over the list of entries handed to the consuming fold.
-/

namespace TypstPdf

/-- Identifies the color space definitions (`SRGB` / `SRGB_GRAY` names). -/
inductive CsName where
  | srgb
  | srgbGray
deriving DecidableEq, Repr

/-- `pdf_writer` filter choice used by the exporter. -/
inductive Filter where
  | dctDecode
  | flateDecode
deriving DecidableEq, Repr

/-- Script direction of a language (`geom::Dir`); only LTR/RTL matter here. -/
inductive Dir where
  | ltr
  | rtl
  | ttb
  | btt
deriving DecidableEq, Repr

/-- Viewer preference `Direction` written to the catalog. -/
inductive DirectionPref where
  | l2r
  | r2l
deriving DecidableEq, Repr

/-- `geom::Color`: one of luma, RGBA or CMYK, with `u8` components. -/
inductive Color where
  | luma (v : ℕ)
  | rgba (r g b a : ℕ)
  | cmyk (c m y k : ℕ)
deriving DecidableEq, Repr

/-- `geom::Paint`: solid color only. -/
inductive Paint where
  | solid (c : Color)
deriving DecidableEq, Repr

/-- `geom::Stroke`: a paint plus a thickness (in points, modelled as `ℚ`). -/
structure Stroke where
  paint : Paint
  thickness : ℚ
deriving DecidableEq, Repr

/-- `geom::Transform`: row-major 2D affine matrix `[sx ky kx sy tx ty]`. -/
structure TransformQ where
  sx : ℚ
  ky : ℚ
  kx : ℚ
  sy : ℚ
  tx : ℚ
  ty : ℚ
deriving DecidableEq, Repr

/-- The identity transform (`Transform::default`). -/
def TransformQ.identity : TransformQ := ⟨1, 0, 0, 1, 0, 0⟩

/-- Modelled from the spec: the `geom` module is not under `src/`; affine
composition `self.pre_concat(prev)` applies `prev` first, then `self`. -/
def TransformQ.pre_concat (t prev : TransformQ) : TransformQ :=
  { sx := t.sx * prev.sx + t.kx * prev.ky
    ky := t.ky * prev.sx + t.sy * prev.ky
    kx := t.sx * prev.kx + t.kx * prev.sy
    sy := t.ky * prev.kx + t.sy * prev.sy
    tx := t.sx * prev.tx + t.kx * prev.ty + t.tx
    ty := t.ky * prev.tx + t.sy * prev.ty + t.ty }

/-- Modelled from the spec: translation transform. -/
def TransformQ.translate (x y : ℚ) : TransformQ := ⟨1, 0, 0, 1, x, y⟩

/-- Convert an em value to PDF font units (`EmExt::to_font_units`):
`1000.0 * self.get()`. -/
def toFontUnits (em : ℚ) : ℚ := 1000 * em

/-- One item of a `show_positioned` array: a byte string of glyph codes or a
numeric kerning adjustment. -/
inductive TextItem where
  | show (bytes : List ℕ)
  | adjust (v : ℚ)
deriving DecidableEq, Repr

/-- Content-stream operators emitted by `PageExporter` via `Content`. -/
inductive Op where
  | beginText
  | endText
  | setTextMatrix (a b c d e f : ℚ)
  | showPositioned (items : List TextItem)
  | saveState
  | restoreState
  | transform (a b c d e f : ℚ)
  | moveTo (x y : ℚ)
  | lineTo (x y : ℚ)
  | cubicTo (x1 y1 x2 y2 x3 y3 : ℚ)
  | closePath
  | re (x y w h : ℚ)
  | clipNonzero
  | endPath
  | fillNonzero
  | stroke
  | fillNonzeroAndStroke
  | setFont (idx : ℕ) (size : ℚ)
  | setFillGray (v : ℚ)
  | setFillRgb (r g b : ℚ)
  | setFillCmyk (c m y k : ℚ)
  | setStrokeGray (v : ℚ)
  | setStrokeRgb (r g b : ℚ)
  | setStrokeCmyk (c m y k : ℚ)
  | setFillColorSpace (n : CsName)
  | setStrokeColorSpace (n : CsName)
  | setLineWidth (w : ℚ)
  | xObject (idx : ℕ)
deriving DecidableEq, Repr

/-- `Remapper<Index>`: assigns new, consecutive PDF-internal indices.
`to_pdf` is the forward hash map (modelled extensionally as a lookup
function), `to_layout` the backward vector. -/
structure Remapper (K : Type) where
  to_pdf : K → Option ℕ
  to_layout : List K

/-- `Remapper::new`. -/
def Remapper.new (K : Type) : Remapper K := ⟨fun _ => none, []⟩

/-- `Remapper::insert`: `entry(index).or_insert_with` — if absent, map the
key to `to_layout.len()` and push it onto `to_layout`. -/
def Remapper.insert [DecidableEq K] (r : Remapper K) (k : K) : Remapper K :=
  match r.to_pdf k with
  | some _ => r
  | none =>
      { to_pdf := fun x => if x = k then some r.to_layout.length else r.to_pdf x
        to_layout := r.to_layout ++ [k] }

/-- `Remapper::map`: lookup of an inserted key. An absent key panics in the
source (`self.to_pdf[&index]`); the default `0` is never reached by the
exporter, which always inserts before mapping. -/
def Remapper.mapIdx [DecidableEq K] (r : Remapper K) (k : K) : ℕ :=
  (r.to_pdf k).getD 0

/-- `Remapper::layout_indices`: keys in insertion order. -/
def Remapper.layout_indices (r : Remapper K) : List K := r.to_layout

/-- `Remapper::pdf_indices`: zip a parallel reference array with `0..n`. -/
def Remapper.pdf_indices (r : Remapper K) (refs : List ℕ) : List (ℕ × ℕ) :=
  refs.zip (List.range r.to_layout.length)

/-- Insert a whole sequence of keys, left to right. -/
def Remapper.insertAll [DecidableEq K] (ks : List K) : Remapper K :=
  ks.foldl Remapper.insert (Remapper.new K)

/-- First-occurrence deduplication, the reference order in which a
`Remapper` hands out indices. -/
def dedupFirst [DecidableEq K] (ks : List K) : List K :=
  ks.foldl (fun acc k => if k ∈ acc then acc else acc ++ [k]) []

/-- The coupling invariant between the two sides of a `Remapper`. -/
def Remapper.Inv [DecidableEq K] (r : Remapper K) : Prop :=
  ∀ k i, r.to_pdf k = some i ↔ r.to_layout.get? i = some k

theorem Remapper.inv_new [DecidableEq K] : (Remapper.new K).Inv := by
  intro k i
  simp [Remapper.new]

theorem Remapper.inv_insert [DecidableEq K] (r : Remapper K) (k : K)
    (h : r.Inv) : (r.insert k).Inv := by
  intro x i
  unfold Remapper.insert
  cases hk : r.to_pdf k with
  | some j => exact h x i
  | none =>
      simp only
      constructor
      · intro hx
        by_cases hxk : x = k
        · subst hxk
          simp only [if_true, eq_self_iff_true, Option.some.injEq] at hx
          rw [← hx]
          simp [List.get?_concat_length]
        · rw [if_neg hxk] at hx
          have := (h x i).mp hx
          have hlt : i < r.to_layout.length := by
            by_contra hge
            rw [List.get?_eq_none.mpr (Nat.le_of_not_lt hge)] at this
            exact Option.noConfusion this
          rw [List.get?_append hlt]
          exact this
      · intro hx
        rcases Nat.lt_or_ge i r.to_layout.length with hlt | hge
        · rw [List.get?_append hlt] at hx
          have := (h x i).mpr hx
          by_cases hxk : x = k
          · subst hxk
            rw [hk] at this
            exact Option.noConfusion this
          · rw [if_neg hxk]
            exact this
        · have hi : i = r.to_layout.length := by
            have hlen : i < r.to_layout.length + 1 := by
              by_contra hge2
              have : (r.to_layout ++ [k]).get? i = none := by
                apply List.get?_eq_none.mpr
                simp only [List.length_append, List.length_singleton]
                omega
              rw [this] at hx
              exact Option.noConfusion hx
            omega
          subst hi
          rw [List.get?_concat_length] at hx
          have hxk : x = k := by
            injection hx with hx
            exact hx.symm
          subst hxk
          simp

theorem Remapper.inv_insertAll [DecidableEq K] (ks : List K) :
    (Remapper.insertAll ks).Inv := by
  suffices h : ∀ r : Remapper K, r.Inv → (ks.foldl Remapper.insert r).Inv by
    exact h _ Remapper.inv_new
  induction ks with
  | nil => intro r hr; exact hr
  | cons k ks ih =>
      intro r hr
      exact ih _ (Remapper.inv_insert r k hr)

theorem Remapper.to_pdf_none_iff [DecidableEq K] (r : Remapper K)
    (h : r.Inv) (k : K) : r.to_pdf k = none ↔ k ∉ r.to_layout := by
  constructor
  · intro hn hm
    rcases List.get_of_mem hm with ⟨i, hi⟩
    have : r.to_pdf k = some i.val := (h k i.val).mpr (by rw [List.get?_eq_get]; exact congrArg some hi)
    rw [hn] at this
    exact Option.noConfusion this
  · intro hm
    cases hp : r.to_pdf k with
    | none => rfl
    | some i =>
        exfalso
        exact hm (List.get?_mem ((h k i).mp hp))

theorem Remapper.layout_insertAll [DecidableEq K] (ks : List K) :
    (Remapper.insertAll ks).to_layout = dedupFirst ks := by
  suffices h : ∀ r : Remapper K, r.Inv →
      (ks.foldl Remapper.insert r).to_layout =
        ks.foldl (fun acc k => if k ∈ acc then acc else acc ++ [k]) r.to_layout by
    exact h _ Remapper.inv_new
  induction ks with
  | nil => intro r _; rfl
  | cons k ks ih =>
      intro r hr
      have hstep : (r.insert k).to_layout =
          if k ∈ r.to_layout then r.to_layout else r.to_layout ++ [k] := by
        unfold Remapper.insert
        cases hp : r.to_pdf k with
        | some i =>
            have : k ∈ r.to_layout := List.get?_mem ((hr k i).mp hp)
            simp [this]
        | none =>
            have : k ∉ r.to_layout := (Remapper.to_pdf_none_iff r hr k).mp hp
            simp [this]
      simp only [List.foldl_cons]
      rw [ih _ (Remapper.inv_insert r k hr), hstep]

/-- C5: after any sequence of `Remapper::insert` calls starting from
`Remapper::new`, `backward[forward[k]] = k` for every inserted key,
indices are dense (every `i < len` is hit) and bounded by `len`, `backward`
lists the keys in first-insertion order, `forward` is injective, and
re-inserting an already-present key leaves the remapper unchanged. -/
theorem c5_remapper_invariants {K : Type} [DecidableEq K] (ks : List K) :
    (∀ k i, (Remapper.insertAll ks).to_pdf k = some i →
      (Remapper.insertAll ks).to_layout.get? i = some k) ∧
    (∀ i, i < (Remapper.insertAll ks).to_layout.length →
      ∃ k, (Remapper.insertAll ks).to_pdf k = some i) ∧
    (∀ k i, (Remapper.insertAll ks).to_pdf k = some i →
      i < (Remapper.insertAll ks).to_layout.length) ∧
    (Remapper.insertAll ks).to_layout = dedupFirst ks ∧
    (∀ k1 k2 i, (Remapper.insertAll ks).to_pdf k1 = some i →
      (Remapper.insertAll ks).to_pdf k2 = some i → k1 = k2) ∧
    (∀ k, k ∈ ks → (Remapper.insertAll ks).insert k = Remapper.insertAll ks) := by
  have hinv := Remapper.inv_insertAll ks
  refine ⟨?_, ?_, ?_, Remapper.layout_insertAll ks, ?_, ?_⟩
  · intro k i h
    exact (hinv k i).mp h
  · intro i hi
    refine ⟨(Remapper.insertAll ks).to_layout.get ⟨i, hi⟩, ?_⟩
    exact (hinv _ i).mpr (List.get?_eq_get hi)
  · intro k i h
    have := (hinv k i).mp h
    by_contra hge
    rw [List.get?_eq_none.mpr (Nat.le_of_not_lt hge)] at this
    exact Option.noConfusion this
  · intro k1 k2 i h1 h2
    have e1 := (hinv k1 i).mp h1
    have e2 := (hinv k2 i).mp h2
    rw [e1] at e2
    injection e2
  · intro k hk
    have hmem : k ∈ (Remapper.insertAll ks).to_layout := by
      rw [Remapper.layout_insertAll ks]
      clear hinv
      suffices h : ∀ acc : List K, k ∈ acc ∨ k ∈ ks →
          k ∈ ks.foldl (fun acc k => if k ∈ acc then acc else acc ++ [k]) acc by
        exact h [] (Or.inr hk)
      clear hk
      induction ks with
      | nil => intro acc h; rcases h with h | h; exact h; cases h
      | cons x xs ih =>
          intro acc h
          simp only [List.foldl_cons]
          by_cases hx : x ∈ acc
          · rw [if_pos hx]
            apply ih
            rcases h with h | h
            · exact Or.inl h
            · rcases List.mem_cons.mp h with rfl | h
              · exact Or.inl hx
              · exact Or.inr h
          · rw [if_neg hx]
            apply ih
            rcases h with h | h
            · exact Or.inl (List.mem_append_left _ h)
            · rcases List.mem_cons.mp h with rfl | h
              · exact Or.inl (List.mem_append_right _ (List.mem_singleton.mpr rfl))
              · exact Or.inr h
    cases hp : (Remapper.insertAll ks).to_pdf k with
    | none =>
        exact absurd hmem ((Remapper.to_pdf_none_iff _ hinv k).mp hp)
    | some i =>
        unfold Remapper.insert
        rw [hp]

/-- Witness for C5 at the concrete insertion sequence `[0, 1, 0]`. -/
theorem c5_remapper_invariants_witness :
    (Remapper.insertAll [0, 1, 0] : Remapper ℕ).to_layout = [0, 1] ∧
    (Remapper.insertAll [0, 1, 0] : Remapper ℕ).insert 0 =
      Remapper.insertAll [0, 1, 0] := by
  constructor
  · rw [(c5_remapper_invariants [0, 1, 0]).2.2.2.1]
    decide
  · exact (c5_remapper_invariants [0, 1, 0]).2.2.2.2.2 0 (by decide)

/-- A link destination (`frame::Destination`): an external URL or an
internal location `(page, pos)` with a 1-based page number. -/
inductive Destination where
  | url (s : String)
  | internal (page : ℕ) (pos : ℚ × ℚ)
deriving DecidableEq, Repr

/-- `pdf_writer::Rect` with rational coordinates. -/
structure RectQ where
  x1 : ℚ
  y1 : ℚ
  x2 : ℚ
  y2 : ℚ
deriving DecidableEq, Repr

/-- One element of a `geom::Path`. -/
inductive PathElem where
  | moveTo (p : ℚ × ℚ)
  | lineTo (p : ℚ × ℚ)
  | cubicTo (p1 p2 p3 : ℚ × ℚ)
  | closePath
deriving DecidableEq, Repr

/-- A positioned glyph of a text element; advance and offset are em values. -/
structure Glyph where
  id : ℕ
  x_advance : ℚ
  x_offset : ℚ
deriving DecidableEq, Repr

/-- `frame::Text`: face, font size, fill, language and glyph list. -/
structure TextE where
  face_id : ℕ
  size : ℚ
  fill : Paint
  lang : ℕ
  glyphs : List Glyph
deriving DecidableEq, Repr

/-- `geom::Geometry`. -/
inductive Geometry where
  | rect (size : ℚ × ℚ)
  | ellipse (size : ℚ × ℚ)
  | line (target : ℚ × ℚ)
  | path (p : List PathElem)
deriving DecidableEq, Repr

/-- `geom::Shape`: a geometry with optional fill and stroke. -/
structure ShapeE where
  geometry : Geometry
  fill : Option Paint
  stroke : Option Stroke
deriving DecidableEq, Repr

/-- The simulated graphics `State` of `PageExporter`. -/
structure State where
  transform : TransformQ
  font : Option (ℕ × ℚ)
  fill : Option Paint
  fill_space : Option CsName
  stroke : Option Stroke
  stroke_space : Option CsName
deriving DecidableEq, Repr

/-- `State::default`. -/
def State.init : State := ⟨TransformQ.identity, none, none, none, none, none⟩

/-- External dependencies of the page writer: per-face glyph advances
(`Face::advance`, an `Option` in the source) and the Bezier ellipse
approximation (`geom::Path::ellipse`, whose module is not under `src/`). -/
structure Env where
  advance : ℕ → ℕ → Option ℚ
  ellipse : ℚ × ℚ → List PathElem

/-- The mutable state of `PageExporter` apart from the content stream; the
operator list is returned alongside the state by each writer function.
The glyph `HashSet` is modelled by the list of inserted pairs and the
language `HashMap` by an association list in first-insertion order. -/
structure St where
  state : State
  saves : List State
  fontMap : Remapper ℕ
  imageMap : Remapper ℕ
  glyphSets : List (ℕ × ℕ)
  languages : List (ℕ × ℕ)
  links : List (Destination × RectQ)

/-- The fresh page-exporter state (`PageExporter::new`, with empty shared
document-level maps). -/
def St.init : St :=
  ⟨State.init, [], Remapper.new ℕ, Remapper.new ℕ, [], [], []⟩

/-- `HashMap::entry(k).and_modify(|x| *x += v).or_insert(v)` on an
association list. -/
def bumpTally : List (ℕ × ℕ) → ℕ → ℕ → List (ℕ × ℕ)
  | [], k, v => [(k, v)]
  | (k', v') :: rest, k, v =>
      if k' = k then (k', v' + v) :: rest else (k', v') :: bumpTally rest k v

/-- `PageExporter::save_state`: push a copy of the full state. -/
def save_state (st : St) : St × List Op :=
  ({ st with saves := st.state :: st.saves }, [.saveState])

/-- `PageExporter::restore_state`: pop the saved state. Popping an empty
stack is `expect("missing state save")` in the source, i.e. a panic; the
exporter only ever pops right after a matching push, so that branch is
unreachable and modelled as a no-op on the state. -/
def restore_state (st : St) : St × List Op :=
  match st.saves with
  | s :: rest => ({ st with state := s, saves := rest }, [.restoreState])
  | [] => (st, [.restoreState])

/-- `PageExporter::transform`: pre-concatenate onto the tracked matrix and
emit the `cm` operator. -/
def applyTransform (st : St) (t : TransformQ) : St × List Op :=
  ({ st with state := { st.state with transform := st.state.transform.pre_concat t } },
    [.transform t.sx t.ky t.kx t.sy t.tx t.ty])

/-- `PageExporter::set_font`: emit `Tf` only when the cached font differs. -/
def set_font (st : St) (face : ℕ) (size : ℚ) : St × List Op :=
  if st.state.font ≠ some (face, size) then
    let fm := st.fontMap.insert face
    ({ st with
        fontMap := fm
        state := { st.state with font := some (face, size) } },
      [.setFont (fm.mapIdx face) size])
  else (st, [])

/-- `PageExporter::set_fill_color_space`. -/
def set_fill_color_space (st : St) (n : CsName) : St × List Op :=
  if st.state.fill_space ≠ some n then
    ({ st with state := { st.state with fill_space := some n } },
      [.setFillColorSpace n])
  else (st, [])

/-- `PageExporter::set_fill`: emit color-space and color operators only
when the cached fill differs; `f(c) = c / 255`. -/
def set_fill (st : St) (fill : Paint) : St × List Op :=
  if st.state.fill ≠ some fill then
    let (st1, ops) : St × List Op :=
      match fill with
      | .solid (.luma v) =>
          let (s, o) := set_fill_color_space st .srgbGray
          (s, o ++ [.setFillGray ((v : ℚ) / 255)])
      | .solid (.rgba r g b _) =>
          let (s, o) := set_fill_color_space st .srgb
          (s, o ++ [.setFillRgb ((r : ℚ) / 255) ((g : ℚ) / 255) ((b : ℚ) / 255)])
      | .solid (.cmyk c m y k) =>
          (st, [.setFillCmyk ((c : ℚ) / 255) ((m : ℚ) / 255) ((y : ℚ) / 255)
            ((k : ℚ) / 255)])
    ({ st1 with state := { st1.state with fill := some fill } }, ops)
  else (st, [])

/-- `PageExporter::set_stroke_color_space`. -/
def set_stroke_color_space (st : St) (n : CsName) : St × List Op :=
  if st.state.stroke_space ≠ some n then
    ({ st with state := { st.state with stroke_space := some n } },
      [.setStrokeColorSpace n])
  else (st, [])

/-- `PageExporter::set_stroke`: color operators plus `set_line_width`,
suppressed when the cached stroke (paint and thickness) already matches. -/
def set_stroke (st : St) (stroke : Stroke) : St × List Op :=
  if st.state.stroke ≠ some stroke then
    let (st1, ops) : St × List Op :=
      match stroke.paint with
      | .solid (.luma v) =>
          let (s, o) := set_stroke_color_space st .srgbGray
          (s, o ++ [.setStrokeGray ((v : ℚ) / 255)])
      | .solid (.rgba r g b _) =>
          let (s, o) := set_stroke_color_space st .srgb
          (s, o ++ [.setStrokeRgb ((r : ℚ) / 255) ((g : ℚ) / 255) ((b : ℚ) / 255)])
      | .solid (.cmyk c m y k) =>
          (st, [.setStrokeCmyk ((c : ℚ) / 255) ((m : ℚ) / 255) ((y : ℚ) / 255)
            ((k : ℚ) / 255)])
    ({ st1 with state := { st1.state with stroke := some stroke } },
      ops ++ [.setLineWidth stroke.thickness])
  else (st, [])

/-- The two bytes pushed for one glyph: `(id >> 8) as u8` and
`(id & 0xff) as u8`. -/
def glyphBytes (g : Glyph) : List ℕ := [g.id / 256 % 256, g.id % 256]

/-- `if let Some(advance) = face.advance(glyph.id) { adjustment +=
glyph.x_advance - advance; }`: the adjustment update after the glyph bytes
are pushed. -/
def advanceAdj (adv : ℕ → Option ℚ) (g : Glyph) (a : ℚ) : ℚ :=
  match adv g.id with
  | some advance => a + (g.x_advance - advance)
  | none => a

/-- The glyph loop of `PageExporter::write_text` building the
`show_positioned` items: running em `adjustment` and pending `encoded`
byte string, flushed as described in the source. -/
def showLoop (adv : ℕ → Option ℚ) : List Glyph → ℚ → List ℕ → List TextItem
  | [], _, enc => if enc.isEmpty then [] else [.show enc]
  | g :: gs, adjustment, enc =>
      let a1 := adjustment + g.x_offset
      let pre : List TextItem :=
        if a1 = 0 then []
        else (if enc.isEmpty then [] else [.show enc]) ++
          [.adjust (-(toFontUnits a1))]
      let a2 : ℚ := if a1 = 0 then a1 else 0
      let e2 : List ℕ := (if a1 = 0 then enc else []) ++ glyphBytes g
      pre ++ showLoop adv gs (advanceAdj adv g a2 - g.x_offset) e2

/-- `PageExporter::write_text`: record the glyph set, set font and fill,
position the text matrix, and emit one begin/end text block with a single
`show_positioned` operator; finally bump the language tally. -/
def write_text (env : Env) (x y : ℚ) (t : TextE) (st : St) : St × List Op :=
  let st0 := { st with
    glyphSets := st.glyphSets ++ t.glyphs.map (fun g => (t.face_id, g.id)) }
  let r1 := set_font st0 t.face_id t.size
  let r2 := set_fill r1.1 t.fill
  let items := showLoop (env.advance t.face_id) t.glyphs 0 []
  let st3 := { r2.1 with
    languages := bumpTally r2.1.languages t.lang t.glyphs.length }
  (st3, [.beginText] ++ r1.2 ++ r2.2 ++
    [.setTextMatrix 1 0 0 (-1) x y, .showPositioned items, .endText])

/-- `PageExporter::write_path`: stream the path operators shifted by the
element position. -/
def pathOps (x y : ℚ) (p : List PathElem) : List Op :=
  p.map fun e =>
    match e with
    | .moveTo q => .moveTo (x + q.1) (y + q.2)
    | .lineTo q => .lineTo (x + q.1) (y + q.2)
    | .cubicTo p1 p2 p3 =>
        .cubicTo (x + p1.1) (y + p1.2) (x + p2.1) (y + p2.2) (x + p3.1) (y + p3.2)
    | .closePath => .closePath

/-- `PageExporter::write_shape`: skip when fill and stroke are both absent;
emit the geometry (the `re` operator only for strictly positive rectangle
sides), then fill/stroke state, then the painting operator. -/
def write_shape (env : Env) (x y : ℚ) (sh : ShapeE) (st : St) : St × List Op :=
  if sh.fill = none ∧ sh.stroke = none then (st, [])
  else
    let geomOps : List Op :=
      match sh.geometry with
      | .rect sz => if 0 < sz.1 ∧ 0 < sz.2 then [.re x y sz.1 sz.2] else []
      | .ellipse sz => pathOps x y (env.ellipse sz)
      | .line t => [.moveTo x y, .lineTo (x + t.1) (y + t.2)]
      | .path p => pathOps x y p
    let r1 : St × List Op :=
      match sh.fill with
      | some f => set_fill st f
      | none => (st, [])
    let r2 : St × List Op :=
      match sh.stroke with
      | some s => set_stroke r1.1 s
      | none => (r1.1, [])
    let paintOps : List Op :=
      match sh.fill, sh.stroke with
      | none, none => []
      | some _, none => [.fillNonzero]
      | none, some _ => [.stroke]
      | some _, some _ => [.fillNonzeroAndStroke]
    (r2.1, geomOps ++ r1.2 ++ r2.2 ++ paintOps)

/-- `PageExporter::write_image`: register the image, then emit a
content-level save/transform/`Do`/restore quadruple (the simulated state
is not touched, matching the direct `self.content` calls in the source). -/
def write_image (st : St) (x y : ℚ) (id : ℕ) (size : ℚ × ℚ) : St × List Op :=
  let im := st.imageMap.insert id
  ({ st with imageMap := im },
    [.saveState, .transform size.1 0 0 (-size.2) x (y + size.2),
      .xObject (im.mapIdx id), .restoreState])

/-- Modelled from the spec: `Point::transform` of the `geom` module (not
under `src/`) applies the affine matrix to a point. -/
def transformPoint (t : TransformQ) (p : ℚ × ℚ) : ℚ × ℚ :=
  (t.sx * p.1 + t.kx * p.2 + t.tx, t.ky * p.1 + t.sy * p.2 + t.ty)

/-- `PageExporter::write_link`: bounding box of the four transformed
corners, stored as `(min_x, max_y, max_x, min_y)`. -/
def write_link (st : St) (pos : ℚ × ℚ) (dest : Destination) (size : ℚ × ℚ) :
    St × List Op :=
  let t1 := transformPoint st.state.transform pos
  let t2 := transformPoint st.state.transform (pos.1 + size.1, pos.2)
  let t3 := transformPoint st.state.transform (pos.1, pos.2 + size.2)
  let t4 := transformPoint st.state.transform (pos.1 + size.1, pos.2 + size.2)
  let minX := min (min t1.1 t2.1) (min t3.1 t4.1)
  let maxX := max (max t1.1 t2.1) (max t3.1 t4.1)
  let minY := min (min t1.2 t2.2) (min t3.2 t4.2)
  let maxY := max (max t1.2 t2.2) (max t3.2 t4.2)
  ({ st with links := st.links ++ [(dest, ⟨minX, maxY, maxX, minY⟩)] }, [])

mutual
/-- `frame::Element`: the closed variant set of drawing primitives. -/
inductive Element where
  | group (transform : TransformQ) (clips : Bool) (frame : Frame)
  | text (t : TextE)
  | shape (s : ShapeE)
  | image (id : ℕ) (size : ℚ × ℚ)
  | link (dest : Destination) (size : ℚ × ℚ)
  | pin
/-- `frame::Frame`: a size plus positioned elements. -/
inductive Frame where
  | mk (size : ℚ × ℚ) (elements : List ((ℚ × ℚ) × Element))
end

/-- The size of a frame. -/
def Frame.size : Frame → ℚ × ℚ
  | .mk s _ => s

/-- The positioned elements of a frame. -/
def Frame.elements : Frame → List ((ℚ × ℚ) × Element)
  | .mk _ es => es

mutual
/-- `PageExporter::write_frame`'s dispatch on one element
(`write_group` inlined for the group case): a group saves state, applies
translation pre-concatenated with its own transform, optionally clips to
its frame box, writes its children, and restores state. -/
def write_element (env : Env) (pos : ℚ × ℚ) (e : Element) (st : St) :
    St × List Op :=
  match e with
  | .group tf clips (.mk fsize els) =>
      let r1 := save_state st
      let r2 :=
        applyTransform r1.1 ((TransformQ.translate pos.1 pos.2).pre_concat tf)
      let clipOps : List Op :=
        if clips then
          [.moveTo 0 0, .lineTo fsize.1 0, .lineTo fsize.1 fsize.2,
            .lineTo 0 fsize.2, .clipNonzero, .endPath]
        else []
      let r3 := write_elems env els r2.1
      let r4 := restore_state r3.1
      (r4.1, r1.2 ++ r2.2 ++ clipOps ++ r3.2 ++ r4.2)
  | .text t => write_text env pos.1 pos.2 t st
  | .shape s => write_shape env pos.1 pos.2 s st
  | .image id size => write_image st pos.1 pos.2 id size
  | .link dest size => write_link st pos dest size
  | .pin => (st, [])
/-- `PageExporter::write_frame`'s loop over the positioned elements. -/
def write_elems (env : Env) (es : List ((ℚ × ℚ) × Element)) (st : St) :
    St × List Op :=
  match es with
  | [] => (st, [])
  | (p, e) :: rest =>
      let r1 := write_element env p e st
      let r2 := write_elems env rest r1.1
      (r2.1, r1.2 ++ r2.2)
end

/-- Data for an exported page (`Page`). -/
structure PageRec where
  size : ℚ × ℚ
  content : List Op
  links : List (Destination × RectQ)
  languages : List (ℕ × ℕ)

/-- `PageExporter::new` followed by `PageExporter::export`: fresh per-page
state, saves, languages and links (the font/image maps and glyph sets are
shared with the document exporter via `st`); open with the top-left flip
transform `(1, 0, 0, -1, 0, h)`, then write the frame. -/
def exportPage (env : Env) (f : Frame) (st : St) : PageRec × St :=
  let st0 : St := { st with
    state := State.init, saves := [], languages := [], links := [] }
  let r1 := applyTransform st0 ⟨1, 0, 0, -1, 0, f.size.2⟩
  let r2 := write_elems env f.elements r1.1
  (⟨f.size, r1.2 ++ r2.2, r2.1.links, r2.1.languages⟩, r2.1)

/-- `image::ImageFormat` tags relevant to the encoder (`gif` standing for
any format other than JPEG/PNG). -/
inductive ImageFormat where
  | jpeg
  | png
  | gif
deriving DecidableEq, Repr

/-- `image::DynamicImage`: the decoded pixel buffer variants the exporter
distinguishes (`u8` components). -/
inductive DynamicImage where
  | imageLuma8 (pixels : List ℕ)
  | imageLumaA8 (pixels : List (ℕ × ℕ))
  | imageRgb8 (pixels : List (ℕ × ℕ × ℕ))
  | imageRgba8 (pixels : List (ℕ × ℕ × ℕ × ℕ))
deriving DecidableEq, Repr

/-- `GenericImageView::pixels` on a `DynamicImage` yields `Rgba<u8>`
values: the `image` crate expands gray and RGB pixels to RGBA with alpha
255. -/
def DynamicImage.pixelsRgba : DynamicImage → List (ℕ × ℕ × ℕ × ℕ)
  | .imageLuma8 ps => ps.map fun l => (l, l, l, 255)
  | .imageLumaA8 ps => ps.map fun p => (p.1, p.1, p.1, p.2)
  | .imageRgb8 ps => ps.map fun p => (p.1, p.2.1, p.2.2, 255)
  | .imageRgba8 ps => ps

/-- `ColorType::has_alpha` of the buffer's color type. -/
def DynamicImage.hasAlpha : DynamicImage → Bool
  | .imageLumaA8 _ => true
  | .imageRgba8 _ => true
  | _ => false

/-- A decoded raster image (`image::RasterImage`): source format, pixel
buffer and dimensions. -/
structure RasterImage where
  format : ImageFormat
  buf : DynamicImage
  width : ℕ
  height : ℕ

/-- The external byte-level primitives `encode_image` relies on: the
`image` crate's `write_to` serialisation and the DEFLATE compressor. -/
structure Codec where
  writeTo : DynamicImage → ImageFormat → Except Unit (List ℕ)
  deflate : List ℕ → List ℕ

/-- The RGB triplets packed in the fallthrough arm of `encode_image`:
`for (_, _, Rgba([r, g, b, _])) in buf.pixels()` — alpha is dropped. -/
def packRgb (buf : DynamicImage) : List ℕ :=
  buf.pixelsRgba.flatMap fun p => [p.1, p.2.1, p.2.2.1]

/-- `encode_image`: choose output stream, filter and color flag by
`(img.format, img.buf)`. -/
def encode_image (c : Codec) (img : RasterImage) :
    Except Unit (List ℕ × Filter × Bool) :=
  match img.format, img.buf with
  | .jpeg, .imageLuma8 _ =>
      (c.writeTo img.buf .jpeg).map fun data => (data, Filter.dctDecode, false)
  | .jpeg, .imageRgb8 _ =>
      (c.writeTo img.buf .jpeg).map fun data => (data, Filter.dctDecode, true)
  | .png, .imageLuma8 luma =>
      .ok (c.deflate luma, Filter.flateDecode, false)
  | _, buf =>
      .ok (c.deflate (packRgb buf), Filter.flateDecode, true)

/-- `encode_alpha`: one byte per pixel from the alpha channel, deflated. -/
def encode_alpha (c : Codec) (img : RasterImage) : List ℕ × Filter :=
  (c.deflate (img.buf.pixelsRgba.map fun p => p.2.2.2), Filter.flateDecode)

/-- The color space set on an image x-object. -/
inductive ColorSpaceK where
  | deviceRgb
  | deviceGray
deriving DecidableEq, Repr

/-- An emitted image x-object (the fields `write_images` sets). -/
structure XObject where
  ref : ℕ
  data : List ℕ
  filter : Option Filter
  width : ℤ
  height : ℤ
  bitsPerComponent : ℕ
  colorSpace : ColorSpaceK
  smask : Option ℕ
deriving DecidableEq, Repr

/-- The raster arm of `PdfExporter::write_images` for one image: allocate
the primary ref and encode; on success emit the primary x-object and, when
the buffer has an alpha channel, allocate a mask ref, point the primary's
`/SMask` at it and emit the gray soft mask; on failure emit the 0x0
one-bit gray placeholder. Returns the emitted objects and the next free
ref. -/
def write_raster_image (c : Codec) (alloc : ℕ) (img : RasterImage) :
    List XObject × ℕ :=
  let image_ref := alloc
  match encode_image c img with
  | .ok (data, filter, hasColor) =>
      let cs := if hasColor then ColorSpaceK.deviceRgb else ColorSpaceK.deviceGray
      if img.buf.hasAlpha then
        let alphaEnc := encode_alpha c img
        let mask_ref := image_ref + 1
        ([{ ref := image_ref, data := data, filter := some filter,
            width := (img.width : ℤ), height := (img.height : ℤ),
            bitsPerComponent := 8, colorSpace := cs, smask := some mask_ref },
          { ref := mask_ref, data := alphaEnc.1, filter := some alphaEnc.2,
            width := (img.width : ℤ), height := (img.height : ℤ),
            bitsPerComponent := 8, colorSpace := .deviceGray, smask := none }],
          image_ref + 2)
      else
        ([{ ref := image_ref, data := data, filter := some filter,
            width := (img.width : ℤ), height := (img.height : ℤ),
            bitsPerComponent := 8, colorSpace := cs, smask := none }],
          image_ref + 1)
  | .error _ =>
      ([{ ref := image_ref, data := [], filter := none, width := 0, height := 0,
          bitsPerComponent := 1, colorSpace := .deviceGray, smask := none }],
        image_ref + 1)

/-- The font-file stream data of `PdfExporter::write_fonts`: the subsetter
(module `export::subset`, not under `src/`) and DEFLATE are parameters;
`subset(buffer, face.index(), glyphs)` returning `None` falls back to the
original bytes (`subsetted.as_deref().unwrap_or(buffer)`). -/
def fontFileData (deflateF : List ℕ → List ℕ)
    (subsetF : List ℕ → ℕ → List ℕ → Option (List ℕ))
    (buffer : List ℕ) (index : ℕ) (glyphs : List ℕ) : List ℕ :=
  deflateF ((subsetF buffer index glyphs).getD buffer)

/-- The action of an emitted link annotation. -/
inductive AnnotAction where
  | uri (s : String)
  | goto (pageRef : ℕ) (x : ℚ) (y : ℚ) (zoom : Option ℚ)
deriving DecidableEq, Repr

/-- An emitted link annotation. -/
structure LinkAnnot where
  rect : RectQ
  action : AnnotAction
deriving DecidableEq, Repr

/-- The annotation written for one recorded link in
`PdfExporter::write_structure`: URLs get a URI action; an internal
`(page, pos)` indexes `page_refs` and `page_heights` at `page - 1` and
gets a GoTo action with direct XYZ destination
`(pos.x, height - pos.y, None)`. An out-of-range index panics in the
source, modelled as `none`. -/
def annotationFor (page_refs : List ℕ) (page_heights : List ℚ)
    (l : Destination × RectQ) : Option LinkAnnot :=
  match l with
  | (.url s, rect) => some ⟨rect, .uri s⟩
  | (.internal page pos, rect) =>
      match page_refs.get? (page - 1), page_heights.get? (page - 1) with
      | some pr, some hgt => some ⟨rect, .goto pr pos.1 (hgt - pos.2) none⟩
      | _, _ => none

/-- The language-tally merging loop of `write_structure`: per-page tallies
are summed into one document tally. -/
def mergeLanguages (pages : List PageRec) : List (ℕ × ℕ) :=
  pages.foldl
    (fun acc pg => pg.languages.foldl (fun a kv => bumpTally a kv.1 kv.2) acc) []

/-- One step of `Iterator::max_by` with `v1.cmp(v2)` on the counts: the
underlying reduce keeps the earlier element only when strictly greater, so
ties go to the later element of the iteration order. -/
def maxStep (acc : Option (ℕ × ℕ)) (y : ℕ × ℕ) : Option (ℕ × ℕ) :=
  match acc with
  | none => some y
  | some x => if y.2 < x.2 then some x else some y

/-- `languages.into_iter().max_by(|(_, v1), (_, v2)| v1.cmp(v2))`. -/
def rustMaxBy (l : List (ℕ × ℕ)) : Option (ℕ × ℕ) :=
  l.foldl maxStep none

/-- The document language chosen in `write_structure`, as a function of the
order in which the hash map yields its entries. -/
def docLang (entries : List (ℕ × ℕ)) : Option ℕ :=
  (rustMaxBy entries).map Prod.fst

/-- The viewer preference `Direction`: `R2L` iff the chosen language's
script direction is RTL. `Lang::dir` lives in `library::text` (not under
`src/`) and is a parameter. -/
def docDir (dir : ℕ → Dir) (entries : List (ℕ × ℕ)) : DirectionPref :=
  if (docLang entries).map dir = some Dir.rtl then .r2l else .l2r

/-- Modelled from the spec: the claim's accumulation rule for the
show-positioned array, with a total `face.default_advance`: for each glyph
add its `x_offset` to the running em adjustment; if the adjustment is then
nonzero, flush the pending byte string, emit the negated adjustment in
font units (1000 x em) and reset it; append the glyph's two id bytes; add
`x_advance - default_advance(id)`; subtract `x_offset`. -/
def specShowLoop (da : ℕ → ℚ) : List Glyph → ℚ → List ℕ → List TextItem
  | [], _, enc => if enc.isEmpty then [] else [.show enc]
  | g :: gs, adjustment, enc =>
      let a1 := adjustment + g.x_offset
      if a1 = 0 then
        specShowLoop da gs (a1 + (g.x_advance - da g.id) - g.x_offset)
          (enc ++ glyphBytes g)
      else
        (if enc.isEmpty then [] else [.show enc]) ++
          [.adjust (-(toFontUnits a1))] ++
          specShowLoop da gs (0 + (g.x_advance - da g.id) - g.x_offset)
            (glyphBytes g)

theorem set_font_font (st : St) (f : ℕ) (sz : ℚ) :
    (set_font st f sz).1.state.font = some (f, sz) := by
  unfold set_font
  split
  · rfl
  · next h => exact not_ne_iff.mp h

theorem set_font_cached (st : St) (f : ℕ) (sz : ℚ)
    (h : st.state.font = some (f, sz)) : set_font st f sz = (st, []) := by
  unfold set_font
  rw [if_neg (not_ne_iff.mpr h)]

theorem set_fill_fill (st : St) (p : Paint) :
    (set_fill st p).1.state.fill = some p := by
  unfold set_fill
  split
  · cases p with
    | solid c =>
        cases c <;> simp [set_fill_color_space]
  · next h => exact not_ne_iff.mp h

theorem set_fill_cached (st : St) (p : Paint)
    (h : st.state.fill = some p) : set_fill st p = (st, []) := by
  unfold set_fill
  rw [if_neg (not_ne_iff.mpr h)]

theorem set_fill_stroke_eq (st : St) (p : Paint) :
    (set_fill st p).1.state.stroke = st.state.stroke := by
  unfold set_fill
  split
  · cases p with
    | solid c =>
        cases c <;> simp only [set_fill_color_space] <;> split <;> rfl
  · rfl

theorem set_stroke_stroke (st : St) (s : Stroke) :
    (set_stroke st s).1.state.stroke = some s := by
  unfold set_stroke
  split
  · cases hp : s.paint with
    | solid c =>
        cases c <;> simp [set_stroke_color_space]
  · next h => exact not_ne_iff.mp h

theorem set_stroke_cached (st : St) (s : Stroke)
    (h : st.state.stroke = some s) : set_stroke st s = (st, []) := by
  unfold set_stroke
  rw [if_neg (not_ne_iff.mpr h)]

theorem set_fill_color_space_space (st : St) (n : CsName) :
    (set_fill_color_space st n).1.state.fill_space = some n := by
  unfold set_fill_color_space
  split
  · rfl
  · next h => exact not_ne_iff.mp h

theorem set_stroke_color_space_space (st : St) (n : CsName) :
    (set_stroke_color_space st n).1.state.stroke_space = some n := by
  unfold set_stroke_color_space
  split
  · rfl
  · next h => exact not_ne_iff.mp h

theorem set_fill_color_space_cached (st : St) (n : CsName)
    (h : st.state.fill_space = some n) : set_fill_color_space st n = (st, []) := by
  unfold set_fill_color_space
  rw [if_neg (not_ne_iff.mpr h)]

theorem set_stroke_color_space_cached (st : St) (n : CsName)
    (h : st.state.stroke_space = some n) :
    set_stroke_color_space st n = (st, []) := by
  unfold set_stroke_color_space
  rw [if_neg (not_ne_iff.mpr h)]

theorem set_font_miss (st : St) (f : ℕ) (sz : ℚ)
    (h : st.state.font ≠ some (f, sz)) : (set_font st f sz).2 ≠ [] := by
  unfold set_font
  rw [if_pos h]
  simp

theorem set_fill_miss (st : St) (p : Paint)
    (h : st.state.fill ≠ some p) : (set_fill st p).2 ≠ [] := by
  unfold set_fill
  rw [if_pos h]
  cases p with
  | solid c =>
      cases c <;> simp [set_fill_color_space]

theorem set_stroke_miss (st : St) (s : Stroke)
    (h : st.state.stroke ≠ some s) : (set_stroke st s).2 ≠ [] := by
  unfold set_stroke
  rw [if_pos h]
  cases hp : s.paint with
  | solid c =>
      cases c <;> simp [set_stroke_color_space]

/-- C4: within one page, a `set_font`, `set_fill` or `set_stroke` call
whose requested value equals the cached one emits no operators and leaves
the state unchanged, so in a run of identical requests only the first call
emits (first-call emission is the three implications); `save_state` pushes
a copy of the full cached state and `restore_state` pops it back. -/
theorem c4_graphics_state_cache (st : St) (f : ℕ) (sz : ℚ) (p : Paint)
    (s : Stroke) (n n' : CsName) :
    (set_font (set_font st f sz).1 f sz).2 = [] ∧
    (set_font (set_font st f sz).1 f sz).1 = (set_font st f sz).1 ∧
    (set_fill (set_fill st p).1 p).2 = [] ∧
    (set_fill (set_fill st p).1 p).1 = (set_fill st p).1 ∧
    (set_stroke (set_stroke st s).1 s).2 = [] ∧
    (set_stroke (set_stroke st s).1 s).1 = (set_stroke st s).1 ∧
    (st.state.font ≠ some (f, sz) → (set_font st f sz).2 ≠ []) ∧
    (st.state.fill ≠ some p → (set_fill st p).2 ≠ []) ∧
    (st.state.stroke ≠ some s → (set_stroke st s).2 ≠ []) ∧
    (save_state st).1.saves = st.state :: st.saves ∧
    (save_state st).1.state = st.state ∧
    (restore_state (save_state st).1).1.state = st.state ∧
    (restore_state (save_state st).1).1.saves = st.saves ∧
    (set_fill_color_space (set_fill_color_space st n).1 n).2 = [] ∧
    (set_stroke_color_space (set_stroke_color_space st n').1 n').2 = [] := by
  refine ⟨?_, ?_, ?_, ?_, ?_, ?_, set_font_miss st f sz, set_fill_miss st p,
    set_stroke_miss st s, rfl, rfl, rfl, rfl, ?_, ?_⟩
  · rw [set_font_cached _ f sz (set_font_font st f sz)]
  · rw [set_font_cached _ f sz (set_font_font st f sz)]
  · rw [set_fill_cached _ p (set_fill_fill st p)]
  · rw [set_fill_cached _ p (set_fill_fill st p)]
  · rw [set_stroke_cached _ s (set_stroke_stroke st s)]
  · rw [set_stroke_cached _ s (set_stroke_stroke st s)]
  · rw [set_fill_color_space_cached _ n (set_fill_color_space_space st n)]
  · rw [set_stroke_color_space_cached _ n' (set_stroke_color_space_space st n')]

/-- Witness for C4 at the initial page state: the second identical
`set_font` emits nothing while the first emits something. -/
theorem c4_graphics_state_cache_witness :
    (set_font (set_font St.init 0 12).1 0 12).2 = [] ∧
    (set_font St.init 0 12).2 ≠ [] := by
  refine ⟨(c4_graphics_state_cache St.init 0 12 (.solid (.luma 0))
    ⟨.solid (.luma 0), 1⟩ .srgb .srgbGray).1, ?_⟩
  exact (c4_graphics_state_cache St.init 0 12 (.solid (.luma 0))
    ⟨.solid (.luma 0), 1⟩ .srgb .srgbGray).2.2.2.2.2.2.1 (by decide)

/-- Whether a show-positioned item is a byte string. -/
def TextItem.isShow : TextItem → Bool
  | .show _ => true
  | .adjust _ => false

/-- The bytes of all byte strings of a show-positioned array, in order. -/
def showBytes : List TextItem → List ℕ
  | [] => []
  | .show bs :: rest => bs ++ showBytes rest
  | .adjust _ :: rest => showBytes rest

/-- Strict alternation between byte strings and adjustments. -/
def Alternating (l : List TextItem) : Prop :=
  l.Chain' fun a b => a.isShow ≠ b.isShow

/-- The list starts with a byte string. -/
def HeadIsShow (l : List TextItem) : Prop :=
  ∃ bs rest, l = TextItem.show bs :: rest

theorem showBytes_append (l1 l2 : List TextItem) :
    showBytes (l1 ++ l2) = showBytes l1 ++ showBytes l2 := by
  induction l1 with
  | nil => rfl
  | cons a rest ih =>
      cases a <;> simp [showBytes, ih]

theorem showBytes_showLoop (adv : ℕ → Option ℚ) (gs : List Glyph) :
    ∀ adj enc, showBytes (showLoop adv gs adj enc) = enc ++ gs.flatMap glyphBytes := by
  induction gs with
  | nil =>
      intro adj enc
      by_cases h : enc.isEmpty
      · simp [showLoop, h, List.isEmpty_iff.mp h, showBytes]
      · simp [showLoop, h, showBytes]
  | cons g gs ih =>
      intro adj enc
      by_cases h0 : adj + g.x_offset = 0
      · simp [showLoop, h0, ih]
      · by_cases he : enc.isEmpty
        · simp [showLoop, h0, he, ih, showBytes_append, showBytes,
            List.isEmpty_iff.mp he]
        · simp [showLoop, h0, he, ih, showBytes_append, showBytes]

theorem showLoop_shows_nonempty (adv : ℕ → Option ℚ) (gs : List Glyph) :
    ∀ adj enc bs, TextItem.show bs ∈ showLoop adv gs adj enc → bs ≠ [] := by
  induction gs with
  | nil =>
      intro adj enc bs hmem
      by_cases h : enc.isEmpty
      · simp [showLoop, h] at hmem
      · simp [showLoop, h] at hmem
        subst hmem
        exact fun hc => by simp [hc] at h
  | cons g gs ih =>
      intro adj enc bs hmem
      by_cases h0 : adj + g.x_offset = 0
      · simp only [showLoop, if_pos h0, List.nil_append] at hmem
        exact ih _ _ bs hmem
      · simp only [showLoop, if_neg h0] at hmem
        rw [List.mem_append] at hmem
        rcases hmem with hmem | hmem
        · rw [List.mem_append] at hmem
          rcases hmem with hmem | hmem
          · by_cases he : enc.isEmpty
            · simp [he] at hmem
            · simp [he] at hmem
              subst hmem
              exact fun hc => by simp [hc] at he
          · simp at hmem
        · exact ih _ _ bs hmem

theorem showLoop_alt_of_ne (adv : ℕ → Option ℚ) (gs : List Glyph) :
    ∀ adj enc, enc ≠ [] →
      Alternating (showLoop adv gs adj enc) ∧ HeadIsShow (showLoop adv gs adj enc) := by
  induction gs with
  | nil =>
      intro adj enc henc
      have h : enc.isEmpty = false := by
        cases enc with
        | nil => exact absurd rfl henc
        | cons a l => rfl
      constructor
      · simp [showLoop, h, Alternating]
      · exact ⟨enc, [], by simp [showLoop, h]⟩
  | cons g gs ih =>
      intro adj enc henc
      have h : enc.isEmpty = false := by
        cases enc with
        | nil => exact absurd rfl henc
        | cons a l => rfl
      by_cases h0 : adj + g.x_offset = 0
      · have hres := ih (advanceAdj adv g (adj + g.x_offset) - g.x_offset)
          (enc ++ glyphBytes g) (by simp [glyphBytes])
        simpa [showLoop, if_pos h0] using hres
      · have hres := ih (advanceAdj adv g 0 - g.x_offset)
          (glyphBytes g) (by simp [glyphBytes])
        obtain ⟨haltr, bs, rest, hrest⟩ := hres
        constructor
        · show Alternating _
          simp only [showLoop, if_neg h0, h, Bool.false_eq_true, if_false,
            List.nil_append]
          rw [hrest]
          rw [hrest] at haltr
          exact List.Chain'.cons (by simp [TextItem.isShow])
            (List.Chain'.cons (by simp [TextItem.isShow]) haltr)
        · refine ⟨enc, TextItem.adjust (-(toFontUnits (adj + g.x_offset))) ::
            TextItem.show bs :: rest, ?_⟩
          simp only [showLoop, if_neg h0, h, Bool.false_eq_true, if_false,
            List.nil_append]
          rw [hrest]
          rfl

theorem showLoop_alternating (adv : ℕ → Option ℚ) (gs : List Glyph) (adj : ℚ) :
    Alternating (showLoop adv gs adj []) := by
  cases gs with
  | nil => simp [showLoop, Alternating]
  | cons g gs =>
      by_cases h0 : adj + g.x_offset = 0
      · have hres := showLoop_alt_of_ne adv gs
          (advanceAdj adv g (adj + g.x_offset) - g.x_offset)
          ([] ++ glyphBytes g) (by simp [glyphBytes])
        simpa [showLoop, if_pos h0] using hres.1
      · have hres := showLoop_alt_of_ne adv gs (advanceAdj adv g 0 - g.x_offset)
          (glyphBytes g) (by simp [glyphBytes])
        obtain ⟨haltr, bs, rest, hrest⟩ := hres
        show Alternating _
        simp only [showLoop, if_neg h0, List.isEmpty_nil, if_true,
          List.nil_append]
        rw [hrest]
        rw [hrest] at haltr
        exact List.Chain'.cons (by simp [TextItem.isShow]) haltr

theorem showLoop_eq_specShowLoop (adv : ℕ → Option ℚ) (da : ℕ → ℚ)
    (h : ∀ i, adv i = some (da i)) (gs : List Glyph) :
    ∀ adj enc, showLoop adv gs adj enc = specShowLoop da gs adj enc := by
  induction gs with
  | nil => intro adj enc; rfl
  | cons g gs ih =>
      intro adj enc
      by_cases h0 : adj + g.x_offset = 0
      · simp [showLoop, specShowLoop, h0, advanceAdj, h g.id, ih]
      · simp [showLoop, specShowLoop, h0, advanceAdj, h g.id, ih]

/-- Operators marking the structure of a text block. -/
def Op.isTextMarker : Op → Bool
  | .beginText => true
  | .endText => true
  | .showPositioned _ => true
  | _ => false

theorem set_font_ops_not_text (st : St) (f : ℕ) (sz : ℚ) :
    ∀ op ∈ (set_font st f sz).2, op.isTextMarker = false := by
  intro op hop
  unfold set_font at hop
  split at hop
  · simp at hop
    subst hop
    rfl
  · simp at hop

theorem set_fill_ops_not_text (st : St) (p : Paint) :
    ∀ op ∈ (set_fill st p).2, op.isTextMarker = false := by
  intro op hop
  unfold set_fill at hop
  split at hop
  · cases p with
    | solid c =>
        cases c with
        | luma v =>
            simp only [set_fill_color_space] at hop
            split at hop <;> simp at hop <;>
              first
                | (subst hop; rfl)
                | (rcases hop with rfl | rfl <;> rfl)
        | rgba r g b a =>
            simp only [set_fill_color_space] at hop
            split at hop <;> simp at hop <;>
              first
                | (subst hop; rfl)
                | (rcases hop with rfl | rfl <;> rfl)
        | cmyk c m y k =>
            simp at hop
            subst hop
            rfl
  · simp at hop

/-- C1: `write_text` emits one begin-text/end-text block whose only
text-structural interior operator is a single show-positioned operator;
its item array equals the spec's accumulation rule (for a face whose
`advance` is defined on every glyph id, as the claim's `default_advance`
presumes), strictly alternates nonempty byte strings with numeric
adjustments, and its byte strings spell exactly the two big-endian id
bytes of each glyph in order. -/
theorem c1_write_text (env : Env) (da : ℕ → ℚ) (x y : ℚ) (t : TextE) (st : St)
    (hadv : ∀ i, env.advance t.face_id i = some (da i)) :
    ∃ pre,
      (write_text env x y t st).2 =
        [Op.beginText] ++ pre ++
          [Op.setTextMatrix 1 0 0 (-1) x y,
            Op.showPositioned (specShowLoop da t.glyphs 0 []),
            Op.endText] ∧
      (∀ op ∈ pre, op.isTextMarker = false) ∧
      Alternating (specShowLoop da t.glyphs 0 []) ∧
      (∀ bs, TextItem.show bs ∈ specShowLoop da t.glyphs 0 [] → bs ≠ []) ∧
      showBytes (specShowLoop da t.glyphs 0 []) = t.glyphs.flatMap glyphBytes := by
  have hitems : showLoop (env.advance t.face_id) t.glyphs 0 [] =
      specShowLoop da t.glyphs 0 [] :=
    showLoop_eq_specShowLoop _ da hadv t.glyphs 0 []
  set st0 : St := { st with
    glyphSets := st.glyphSets ++ t.glyphs.map (fun g => (t.face_id, g.id)) } with hst0
  refine ⟨(set_font st0 t.face_id t.size).2 ++
    (set_fill (set_font st0 t.face_id t.size).1 t.fill).2, ?_, ?_, ?_, ?_, ?_⟩
  · rw [← hitems]
    simp [write_text, List.append_assoc]
  · intro op hop
    rw [List.mem_append] at hop
    rcases hop with hop | hop
    · exact set_font_ops_not_text _ _ _ op hop
    · exact set_fill_ops_not_text _ _ op hop
  · rw [← hitems]
    exact showLoop_alternating _ _ _
  · intro bs hbs
    rw [← hitems] at hbs
    exact showLoop_shows_nonempty _ _ _ _ bs hbs
  · rw [← hitems]
    simpa using showBytes_showLoop (env.advance t.face_id) t.glyphs 0 []

/-- A concrete environment whose faces report advance 1 em for every
glyph, with a trivial ellipse approximation. -/
def envW : Env := ⟨fun _ _ => some 1, fun _ => []⟩

/-- A concrete two-glyph text run. -/
def textW : TextE := ⟨0, 12, .solid (.luma 0), 0, [⟨65, 1, 0⟩, ⟨66, 1, 1/2⟩]⟩

/-- Witness for C1 at a concrete two-glyph text element. -/
theorem c1_write_text_witness :
    ∃ pre,
      (write_text envW 10 20 textW St.init).2 =
        [Op.beginText] ++ pre ++
          [Op.setTextMatrix 1 0 0 (-1) 10 20,
            Op.showPositioned (specShowLoop (fun _ => 1) textW.glyphs 0 []),
            Op.endText] ∧
      (∀ op ∈ pre, op.isTextMarker = false) ∧
      Alternating (specShowLoop (fun _ => 1) textW.glyphs 0 []) ∧
      (∀ bs, TextItem.show bs ∈ specShowLoop (fun _ => 1) textW.glyphs 0 [] → bs ≠ []) ∧
      showBytes (specShowLoop (fun _ => 1) textW.glyphs 0 []) =
        textW.glyphs.flatMap glyphBytes :=
  c1_write_text envW (fun _ => 1) 10 20 textW St.init (fun _ => rfl)

/-- Save/restore depth contribution of one operator. -/
def qDelta : Op → ℤ
  | .saveState => 1
  | .restoreState => -1
  | _ => 0

/-- Net save/restore depth of an operator list. -/
def depthAfter (l : List Op) : ℤ := (l.map qDelta).sum

/-- Balanced save/restore nesting: net depth zero, and no initial segment
closes more states than it opened. -/
def BalancedOps (l : List Op) : Prop :=
  depthAfter l = 0 ∧ ∀ n, 0 ≤ depthAfter (l.take n)

theorem depthAfter_append (l1 l2 : List Op) :
    depthAfter (l1 ++ l2) = depthAfter l1 + depthAfter l2 := by
  simp [depthAfter]

theorem balanced_nil : BalancedOps [] := ⟨rfl, fun n => by simp [depthAfter]⟩

theorem balanced_append {l1 l2 : List Op}
    (h1 : BalancedOps l1) (h2 : BalancedOps l2) : BalancedOps (l1 ++ l2) := by
  constructor
  · rw [depthAfter_append, h1.1, h2.1]
    norm_num
  · intro n
    rw [List.take_append_eq_append_take, depthAfter_append]
    have := h1.2 n
    have := h2.2 (n - l1.length)
    omega

theorem balanced_no_q {l : List Op} (h : ∀ op ∈ l, qDelta op = 0) :
    BalancedOps l := by
  have hz : ∀ n, depthAfter (l.take n) = 0 := by
    intro n
    apply List.sum_eq_zero
    intro x hx
    rw [List.mem_map] at hx
    obtain ⟨op, hop, rfl⟩ := hx
    exact h op (List.take_subset n l hop)
  constructor
  · have := hz l.length
    rwa [List.take_length] at this
  · intro n
    rw [hz n]

theorem balanced_wrap {l : List Op} (h : BalancedOps l) :
    BalancedOps ([Op.saveState] ++ l ++ [Op.restoreState]) := by
  constructor
  · rw [depthAfter_append, depthAfter_append, h.1]
    simp [depthAfter, qDelta]
  · intro n
    cases n with
    | zero => simp [depthAfter]
    | succ m =>
        have hcons : ([Op.saveState] ++ l ++ [Op.restoreState]).take (m + 1) =
            Op.saveState :: (l ++ [Op.restoreState]).take m := by
          rw [List.append_assoc]
          rfl
        rw [hcons]
        have hsplit : (l ++ [Op.restoreState]).take m =
            l.take m ++ [Op.restoreState].take (m - l.length) :=
          List.take_append_eq_append_take
        have htail : -1 ≤ depthAfter ([Op.restoreState].take (m - l.length)) := by
          cases hm : m - l.length with
          | zero => simp [depthAfter]
          | succ k =>
              have : [Op.restoreState].take (k + 1) = [Op.restoreState] := by
                simp
              rw [this]
              simp [depthAfter, qDelta]
        have hhead := h.2 m
        have : depthAfter (Op.saveState :: (l ++ [Op.restoreState]).take m) =
            1 + depthAfter ((l ++ [Op.restoreState]).take m) := by
          simp [depthAfter, qDelta]
        rw [this, hsplit, depthAfter_append]
        omega

theorem qDelta_set_font (st : St) (f : ℕ) (sz : ℚ) :
    ∀ op ∈ (set_font st f sz).2, qDelta op = 0 := by
  intro op hop
  unfold set_font at hop
  split at hop
  · simp at hop
    subst hop
    rfl
  · simp at hop

theorem qDelta_set_fill (st : St) (p : Paint) :
    ∀ op ∈ (set_fill st p).2, qDelta op = 0 := by
  intro op hop
  unfold set_fill at hop
  split at hop
  · cases p with
    | solid c =>
        cases c with
        | luma v =>
            simp only [set_fill_color_space] at hop
            split at hop <;> simp at hop <;>
              first
                | (subst hop; rfl)
                | (rcases hop with rfl | rfl <;> rfl)
        | rgba r g b a =>
            simp only [set_fill_color_space] at hop
            split at hop <;> simp at hop <;>
              first
                | (subst hop; rfl)
                | (rcases hop with rfl | rfl <;> rfl)
        | cmyk c m y k =>
            simp at hop
            subst hop
            rfl
  · simp at hop

theorem qDelta_set_stroke (st : St) (s : Stroke) :
    ∀ op ∈ (set_stroke st s).2, qDelta op = 0 := by
  intro op hop
  unfold set_stroke at hop
  split at hop
  · cases hp : s.paint with
    | solid c =>
        rw [hp] at hop
        cases c with
        | luma v =>
            simp only [set_stroke_color_space] at hop
            split at hop <;> simp at hop <;>
              rcases hop with rfl | rfl | rfl <;> rfl
        | rgba r g b a =>
            simp only [set_stroke_color_space] at hop
            split at hop <;> simp at hop <;>
              rcases hop with rfl | rfl | rfl <;> rfl
        | cmyk c m y k =>
            simp at hop
            rcases hop with rfl | rfl <;> rfl
  · simp at hop

theorem qDelta_write_text (env : Env) (x y : ℚ) (t : TextE) (st : St) :
    ∀ op ∈ (write_text env x y t st).2, qDelta op = 0 := by
  intro op hop
  simp only [write_text, List.mem_append, List.mem_cons, List.mem_singleton,
    List.not_mem_nil, or_false] at hop
  rcases hop with ((rfl | hop) | hop) | rfl | rfl | rfl
  · rfl
  · exact qDelta_set_font _ _ _ op hop
  · exact qDelta_set_fill _ _ op hop
  · rfl
  · rfl
  · rfl

theorem qDelta_pathOps (x y : ℚ) (p : List PathElem) :
    ∀ op ∈ pathOps x y p, qDelta op = 0 := by
  intro op hop
  unfold pathOps at hop
  rw [List.mem_map] at hop
  obtain ⟨e, _, rfl⟩ := hop
  cases e <;> rfl

theorem qDelta_write_shape (env : Env) (x y : ℚ) (sh : ShapeE) (st : St) :
    ∀ op ∈ (write_shape env x y sh st).2, qDelta op = 0 := by
  intro op hop
  unfold write_shape at hop
  split at hop
  · simp at hop
  · simp only [List.mem_append] at hop
    rcases hop with ((hop | hop) | hop) | hop
    · revert hop
      cases hg : sh.geometry with
      | rect sz =>
          intro hop
          by_cases hpos : 0 < sz.1 ∧ 0 < sz.2
          · simp only [if_pos hpos, List.mem_singleton] at hop
            subst hop
            rfl
          · simp only [if_neg hpos, List.not_mem_nil] at hop
      | ellipse sz =>
          intro hop
          exact qDelta_pathOps _ _ _ op hop
      | line t =>
          intro hop
          simp at hop
          rcases hop with rfl | rfl <;> rfl
      | path p =>
          intro hop
          exact qDelta_pathOps _ _ _ op hop
    · revert hop
      cases sh.fill with
      | some f => exact fun hop => qDelta_set_fill _ _ op hop
      | none => intro hop; simp at hop
    · revert hop
      cases sh.stroke with
      | some s => exact fun hop => qDelta_set_stroke _ _ op hop
      | none => intro hop; simp at hop
    · revert hop
      cases sh.fill <;> cases sh.stroke <;> intro hop <;> simp at hop <;>
        subst hop <;> rfl

theorem restore_state_ops (st : St) : (restore_state st).2 = [Op.restoreState] := by
  unfold restore_state
  split <;> rfl

theorem qDelta_applyTransform (st : St) (t : TransformQ) :
    ∀ op ∈ (applyTransform st t).2, qDelta op = 0 := by
  intro op hop
  simp [applyTransform] at hop
  subst hop
  rfl

theorem qDelta_clipOps (a b : ℚ) :
    ∀ op ∈ [Op.moveTo 0 0, Op.lineTo a 0, Op.lineTo a b, Op.lineTo 0 b,
      Op.clipNonzero, Op.endPath], qDelta op = 0 := by
  intro op hop
  simp at hop
  rcases hop with rfl | rfl | rfl | rfl | rfl | rfl <;> rfl

theorem balanced_write_image (st : St) (x y : ℚ) (id : ℕ) (size : ℚ × ℚ) :
    BalancedOps (write_image st x y id size).2 := by
  show BalancedOps ([Op.saveState] ++
    [Op.transform size.1 0 0 (-size.2) x (y + size.2),
      Op.xObject ((st.imageMap.insert id).mapIdx id)] ++ [Op.restoreState])
  apply balanced_wrap
  apply balanced_no_q
  intro op hop
  simp at hop
  rcases hop with rfl | rfl <;> rfl

mutual
theorem balanced_write_element (env : Env) (pos : ℚ × ℚ) (e : Element) (st : St) :
    BalancedOps (write_element env pos e st).2 :=
  match e with
  | .group tf clips (.mk fsize els) => by
      show BalancedOps
        ((save_state st).2 ++ _ ++ _ ++ _ ++
          (restore_state (write_elems env els
            (applyTransform (save_state st).1
              ((TransformQ.translate pos.1 pos.2).pre_concat tf)).1).1).2)
      rw [restore_state_ops]
      have hmid : BalancedOps
          ((applyTransform (save_state st).1
              ((TransformQ.translate pos.1 pos.2).pre_concat tf)).2 ++
            (if clips then
              [Op.moveTo 0 0, Op.lineTo fsize.1 0, Op.lineTo fsize.1 fsize.2,
                Op.lineTo 0 fsize.2, Op.clipNonzero, Op.endPath]
             else []) ++
            (write_elems env els
              (applyTransform (save_state st).1
                ((TransformQ.translate pos.1 pos.2).pre_concat tf)).1).2) := by
        apply balanced_append
        apply balanced_append
        · exact balanced_no_q (qDelta_applyTransform _ _)
        · split
          · exact balanced_no_q (qDelta_clipOps fsize.1 fsize.2)
          · exact balanced_nil
        · exact balanced_write_elems env els _
      have := balanced_wrap hmid
      simpa [save_state, List.append_assoc] using this
  | .text t => balanced_no_q (qDelta_write_text env pos.1 pos.2 t st)
  | .shape s => balanced_no_q (qDelta_write_shape env pos.1 pos.2 s st)
  | .image id size => balanced_write_image st pos.1 pos.2 id size
  | .link dest size => balanced_nil
  | .pin => balanced_nil

theorem balanced_write_elems (env : Env) (es : List ((ℚ × ℚ) × Element)) (st : St) :
    BalancedOps (write_elems env es st).2 :=
  match es with
  | [] => balanced_nil
  | (p, e) :: rest =>
      balanced_append (balanced_write_element env p e st)
        (balanced_write_elems env rest (write_element env p e st).1)
end

/-- C7: save/restore operators in every emitted content stream are
balanced — for a whole exported page, for any element list, and each group
element contributes exactly one save/restore pair enclosing a balanced
interior (its transform, optional clip and recursively written
children). -/
theorem c7_save_restore_balance :
    (∀ env f st, BalancedOps (exportPage env f st).1.content) ∧
    (∀ env es st, BalancedOps (write_elems env es st).2) ∧
    (∀ env pos tf clips fsize els st,
      ∃ mid, (write_element env pos (.group tf clips (.mk fsize els)) st).2 =
          Op.saveState :: (mid ++ [Op.restoreState]) ∧ BalancedOps mid) := by
  refine ⟨?_, balanced_write_elems, ?_⟩
  · intro env f st
    cases f with
    | mk size els =>
        show BalancedOps (_ ++ (write_elems env els _).2)
        apply balanced_append
        · exact balanced_no_q (qDelta_applyTransform _ _)
        · exact balanced_write_elems env els _
  · intro env pos tf clips fsize els st
    refine ⟨(applyTransform (save_state st).1
        ((TransformQ.translate pos.1 pos.2).pre_concat tf)).2 ++
      (if clips then
        [Op.moveTo 0 0, Op.lineTo fsize.1 0, Op.lineTo fsize.1 fsize.2,
          Op.lineTo 0 fsize.2, Op.clipNonzero, Op.endPath]
       else []) ++
      (write_elems env els
        (applyTransform (save_state st).1
          ((TransformQ.translate pos.1 pos.2).pre_concat tf)).1).2, ?_, ?_⟩
    · show (save_state st).2 ++ _ ++ _ ++ _ ++ (restore_state _).2 = _
      rw [restore_state_ops]
      simp [save_state, List.append_assoc]
    · apply balanced_append
      apply balanced_append
      · exact balanced_no_q (qDelta_applyTransform _ _)
      · split
        · exact balanced_no_q (qDelta_clipOps fsize.1 fsize.2)
        · exact balanced_nil
      · exact balanced_write_elems env els _

/-- Witness for C7 at a concrete one-image frame. -/
theorem c7_save_restore_balance_witness :
    BalancedOps (exportPage envW
      (Frame.mk (10, 10) [((0, 0), Element.image 0 (5, 5))]) St.init).1.content :=
  c7_save_restore_balance.1 envW
    (Frame.mk (10, 10) [((0, 0), Element.image 0 (5, 5))]) St.init

/-- Path-construction operators. -/
def Op.isPathCons : Op → Bool
  | .re _ _ _ _ => true
  | .moveTo _ _ => true
  | .lineTo _ _ => true
  | .cubicTo _ _ _ _ _ _ => true
  | .closePath => true
  | _ => false

/-- Fill color-setting operators. -/
def Op.isFillColor : Op → Bool
  | .setFillGray _ => true
  | .setFillRgb _ _ _ => true
  | .setFillCmyk _ _ _ _ => true
  | _ => false

/-- Stroke color-setting operators. -/
def Op.isStrokeColor : Op → Bool
  | .setStrokeGray _ => true
  | .setStrokeRgb _ _ _ => true
  | .setStrokeCmyk _ _ _ _ => true
  | _ => false

/-- The painting operator chosen from the present paints. -/
def paintOpFor : Option Paint → Option Stroke → List Op
  | none, none => []
  | some _, none => [.fillNonzero]
  | none, some _ => [.stroke]
  | some _, some _ => [.fillNonzeroAndStroke]

theorem set_fill_not_path (st : St) (p : Paint) :
    ∀ op ∈ (set_fill st p).2, op.isPathCons = false := by
  intro op hop
  unfold set_fill at hop
  split at hop
  · cases p with
    | solid c =>
        cases c with
        | luma v =>
            simp only [set_fill_color_space] at hop
            split at hop <;> simp at hop <;>
              first
                | (subst hop; rfl)
                | (rcases hop with rfl | rfl <;> rfl)
        | rgba r g b a =>
            simp only [set_fill_color_space] at hop
            split at hop <;> simp at hop <;>
              first
                | (subst hop; rfl)
                | (rcases hop with rfl | rfl <;> rfl)
        | cmyk c m y k =>
            simp at hop
            subst hop
            rfl
  · simp at hop

theorem set_stroke_not_path (st : St) (s : Stroke) :
    ∀ op ∈ (set_stroke st s).2, op.isPathCons = false := by
  intro op hop
  unfold set_stroke at hop
  split at hop
  · cases hp : s.paint with
    | solid c =>
        rw [hp] at hop
        cases c with
        | luma v =>
            simp only [set_stroke_color_space] at hop
            split at hop <;> simp at hop <;>
              rcases hop with rfl | rfl | rfl <;> rfl
        | rgba r g b a =>
            simp only [set_stroke_color_space] at hop
            split at hop <;> simp at hop <;>
              rcases hop with rfl | rfl | rfl <;> rfl
        | cmyk c m y k =>
            simp at hop
            rcases hop with rfl | rfl <;> rfl
  · simp at hop

theorem set_fill_has_color (st : St) (p : Paint)
    (h : st.state.fill ≠ some p) :
    ∃ op ∈ (set_fill st p).2, op.isFillColor = true := by
  unfold set_fill
  rw [if_pos h]
  cases p with
  | solid c =>
      cases c with
      | luma v =>
          refine ⟨Op.setFillGray ((v : ℚ) / 255), ?_, rfl⟩
          simp [set_fill_color_space]
      | rgba r g b a =>
          refine ⟨Op.setFillRgb ((r : ℚ) / 255) ((g : ℚ) / 255) ((b : ℚ) / 255),
            ?_, rfl⟩
          simp [set_fill_color_space]
      | cmyk c m y k =>
          exact ⟨Op.setFillCmyk ((c : ℚ) / 255) ((m : ℚ) / 255) ((y : ℚ) / 255)
            ((k : ℚ) / 255), by simp, rfl⟩

theorem set_stroke_has_color (st : St) (s : Stroke)
    (h : st.state.stroke ≠ some s) :
    ∃ op ∈ (set_stroke st s).2, op.isStrokeColor = true := by
  unfold set_stroke
  rw [if_pos h]
  cases hp : s.paint with
  | solid c =>
      cases c with
      | luma v =>
          refine ⟨Op.setStrokeGray ((v : ℚ) / 255), ?_, rfl⟩
          simp [set_stroke_color_space]
      | rgba r g b a =>
          refine ⟨Op.setStrokeRgb ((r : ℚ) / 255) ((g : ℚ) / 255) ((b : ℚ) / 255),
            ?_, rfl⟩
          simp [set_stroke_color_space]
      | cmyk c m y k =>
          exact ⟨Op.setStrokeCmyk ((c : ℚ) / 255) ((m : ℚ) / 255) ((y : ℚ) / 255)
            ((k : ℚ) / 255), by simp, rfl⟩

/-- C10: a rectangle shape with a non-positive side and at least one paint
emits no path-construction operator, yet still runs the color setters
(which emit on a cache miss) and ends with the painting operator for the
present paints; with both sides strictly positive, the `re` operator is
emitted. -/
theorem c10_degenerate_rect (env : Env) (x y w h : ℚ) (fill : Option Paint)
    (stroke : Option Stroke) (st : St)
    (hdeg : w ≤ 0 ∨ h ≤ 0)
    (hpres : fill ≠ none ∨ stroke ≠ none)
    (hfill : ∀ f, fill = some f → st.state.fill ≠ some f)
    (hstroke : ∀ s, stroke = some s → st.state.stroke ≠ some s) :
    ∃ pop, paintOpFor fill stroke = [pop] ∧
      (write_shape env x y ⟨.rect (w, h), fill, stroke⟩ st).2.getLast? = some pop ∧
      (∀ op ∈ (write_shape env x y ⟨.rect (w, h), fill, stroke⟩ st).2,
        op.isPathCons = false) ∧
      (∀ f, fill = some f →
        ∃ op ∈ (write_shape env x y ⟨.rect (w, h), fill, stroke⟩ st).2,
          op.isFillColor = true) ∧
      (∀ s, stroke = some s →
        ∃ op ∈ (write_shape env x y ⟨.rect (w, h), fill, stroke⟩ st).2,
          op.isStrokeColor = true) ∧
      (∀ w' h', 0 < w' → 0 < h' →
        Op.re x y w' h' ∈
          (write_shape env x y ⟨.rect (w', h'), fill, stroke⟩ st).2) := by
  have hnpos : ¬(0 < w ∧ 0 < h) := by
    rcases hdeg with hd | hd
    · intro hc; exact absurd hc.1 (not_lt.mpr hd)
    · intro hc; exact absurd hc.2 (not_lt.mpr hd)
  have hcond : ¬((⟨.rect (w, h), fill, stroke⟩ : ShapeE).fill = none ∧
      (⟨.rect (w, h), fill, stroke⟩ : ShapeE).stroke = none) := by
    rcases hpres with hp | hp
    · intro hc; exact hp hc.1
    · intro hc; exact hp hc.2
  cases fill with
  | none =>
      cases stroke with
      | none => exact absurd ⟨rfl, rfl⟩ hcond
      | some s =>
          refine ⟨Op.stroke, rfl, ?_, ?_, ?_, ?_, ?_⟩
          · show (write_shape _ _ _ _ _).2.getLast? = _
            unfold write_shape
            rw [if_neg hcond]
            simp only [if_neg hnpos]
            simp [List.getLast?_append]
          · intro op hop
            unfold write_shape at hop
            rw [if_neg hcond] at hop
            simp only [if_neg hnpos] at hop
            simp at hop
            rcases hop with hop | rfl
            · exact set_stroke_not_path _ _ op hop
            · rfl
          · intro f hf; exact absurd hf (by simp)
          · intro s' hs'
            injection hs' with hs'
            subst hs'
            obtain ⟨op, hmem, hcol⟩ := set_stroke_has_color st s (hstroke s rfl)
            refine ⟨op, ?_, hcol⟩
            unfold write_shape
            rw [if_neg hcond]
            simp only [if_neg hnpos]
            simp [hmem]
          · intro w' h' hw hh
            unfold write_shape
            rw [if_neg hcond]
            simp only [if_pos (And.intro hw hh)]
            simp
  | some f =>
      cases stroke with
      | none =>
          refine ⟨Op.fillNonzero, rfl, ?_, ?_, ?_, ?_, ?_⟩
          · show (write_shape _ _ _ _ _).2.getLast? = _
            unfold write_shape
            rw [if_neg hcond]
            simp only [if_neg hnpos]
            simp [List.getLast?_append]
          · intro op hop
            unfold write_shape at hop
            rw [if_neg hcond] at hop
            simp only [if_neg hnpos] at hop
            simp at hop
            rcases hop with hop | rfl
            · exact set_fill_not_path _ _ op hop
            · rfl
          · intro f' hf'
            injection hf' with hf'
            subst hf'
            obtain ⟨op, hmem, hcol⟩ := set_fill_has_color st f (hfill f rfl)
            refine ⟨op, ?_, hcol⟩
            unfold write_shape
            rw [if_neg hcond]
            simp only [if_neg hnpos]
            simp [hmem]
          · intro s hs; exact absurd hs (by simp)
          · intro w' h' hw hh
            unfold write_shape
            rw [if_neg hcond]
            simp only [if_pos (And.intro hw hh)]
            simp
      | some s =>
          refine ⟨Op.fillNonzeroAndStroke, rfl, ?_, ?_, ?_, ?_, ?_⟩
          · show (write_shape _ _ _ _ _).2.getLast? = _
            unfold write_shape
            rw [if_neg hcond]
            simp only [if_neg hnpos]
            simp [List.getLast?_append]
          · intro op hop
            unfold write_shape at hop
            rw [if_neg hcond] at hop
            simp only [if_neg hnpos] at hop
            simp at hop
            rcases hop with hop | hop | rfl
            · exact set_fill_not_path _ _ op hop
            · exact set_stroke_not_path _ _ op hop
            · rfl
          · intro f' hf'
            injection hf' with hf'
            subst hf'
            obtain ⟨op, hmem, hcol⟩ := set_fill_has_color st f (hfill f rfl)
            refine ⟨op, ?_, hcol⟩
            unfold write_shape
            rw [if_neg hcond]
            simp only [if_neg hnpos]
            simp [hmem]
          · intro s' hs'
            injection hs' with hs'
            subst hs'
            obtain ⟨op, hmem, hcol⟩ :=
              set_stroke_has_color (set_fill st f).1 s
                (by rw [set_fill_stroke_eq]; exact hstroke s rfl)
            refine ⟨op, ?_, hcol⟩
            unfold write_shape
            rw [if_neg hcond]
            simp only [if_neg hnpos]
            simp [hmem]
          · intro w' h' hw hh
            unfold write_shape
            rw [if_neg hcond]
            simp only [if_pos (And.intro hw hh)]
            simp

/-- Witness for C10: a 0-wide filled rectangle at the initial state. -/
theorem c10_degenerate_rect_witness :
    ∃ pop, paintOpFor (some (.solid (.luma 7))) none = [pop] ∧
      (write_shape envW 1 2 ⟨.rect (0, 5), some (.solid (.luma 7)), none⟩
        St.init).2.getLast? = some pop ∧
      (∀ op ∈ (write_shape envW 1 2 ⟨.rect (0, 5), some (.solid (.luma 7)), none⟩
          St.init).2, op.isPathCons = false) ∧
      (∀ f, (some (Paint.solid (Color.luma 7)) : Option Paint) = some f →
        ∃ op ∈ (write_shape envW 1 2 ⟨.rect (0, 5), some (.solid (.luma 7)), none⟩
            St.init).2, op.isFillColor = true) ∧
      (∀ s, (none : Option Stroke) = some s →
        ∃ op ∈ (write_shape envW 1 2 ⟨.rect (0, 5), some (.solid (.luma 7)), none⟩
            St.init).2, op.isStrokeColor = true) ∧
      (∀ w' h', 0 < w' → 0 < h' →
        Op.re 1 2 w' h' ∈
          (write_shape envW 1 2 ⟨.rect (w', h'), some (.solid (.luma 7)), none⟩
            St.init).2) :=
  c10_degenerate_rect envW 1 2 0 5 (some (.solid (.luma 7))) none St.init
    (Or.inl (le_refl 0)) (Or.inl (by simp))
    (by intro f hf; simp [St.init, State.init])
    (fun s hs => nomatch hs)

/-- Whether the buffer is the 8-bit gray variant. -/
def DynamicImage.isLuma8 : DynamicImage → Bool
  | .imageLuma8 _ => true
  | _ => false

/-- Whether the buffer is the 8-bit RGB variant. -/
def DynamicImage.isRgb8 : DynamicImage → Bool
  | .imageRgb8 _ => true
  | _ => false

/-- C2: the `encode_image` decision table — JPEG with 8-bit gray pixels
yields the buffer's JPEG serialisation, DCTDecode, no color; JPEG with
8-bit RGB yields the same with color; PNG with 8-bit gray yields the
DEFLATE of the raw luma bytes, FlateDecode, no color; every other
combination yields the DEFLATE of the packed RGB triplets with alpha
stripped, FlateDecode, color. -/
theorem c2_encode_image_table (c : Codec) :
    (∀ img : RasterImage, img.format = .jpeg → img.buf.isLuma8 = true →
      encode_image c img =
        (c.writeTo img.buf .jpeg).map fun d => (d, Filter.dctDecode, false)) ∧
    (∀ img : RasterImage, img.format = .jpeg → img.buf.isRgb8 = true →
      encode_image c img =
        (c.writeTo img.buf .jpeg).map fun d => (d, Filter.dctDecode, true)) ∧
    (∀ (ps : List ℕ) (w h : ℕ),
      encode_image c ⟨.png, .imageLuma8 ps, w, h⟩ =
        .ok (c.deflate ps, Filter.flateDecode, false)) ∧
    (∀ img : RasterImage,
      ¬(img.format = .jpeg ∧ img.buf.isLuma8 = true) →
      ¬(img.format = .jpeg ∧ img.buf.isRgb8 = true) →
      ¬(img.format = .png ∧ img.buf.isLuma8 = true) →
      encode_image c img =
        .ok (c.deflate (packRgb img.buf), Filter.flateDecode, true)) := by
  refine ⟨?_, ?_, ?_, ?_⟩
  · rintro ⟨fmt, buf, w, h⟩ hf hl
    dsimp at hf hl
    subst hf
    cases buf <;> simp [DynamicImage.isLuma8] at hl
    rfl
  · rintro ⟨fmt, buf, w, h⟩ hf hl
    dsimp at hf hl
    subst hf
    cases buf <;> simp [DynamicImage.isRgb8] at hl
    rfl
  · intro ps w h
    rfl
  · rintro ⟨fmt, buf, w, h⟩ h1 h2 h3
    dsimp at h1 h2 h3
    cases fmt <;> cases buf <;> try rfl
    · exact absurd ⟨rfl, rfl⟩ h1
    · exact absurd ⟨rfl, rfl⟩ h2
    · exact absurd ⟨rfl, rfl⟩ h3

/-- A concrete codec with identity DEFLATE and an empty serialiser. -/
def codecW : Codec := ⟨fun _ _ => .ok [], fun l => l⟩

/-- Witness for C2: a PNG with RGB pixels hits the fallthrough arm. -/
theorem c2_encode_image_table_witness :
    encode_image codecW ⟨.png, .imageRgb8 [(1, 2, 3)], 1, 1⟩ =
      .ok ([1, 2, 3], Filter.flateDecode, true) := by
  have h := (c2_encode_image_table codecW).2.2.2
    ⟨.png, .imageRgb8 [(1, 2, 3)], 1, 1⟩ (by simp) (by simp [DynamicImage.isRgb8])
    (by simp [DynamicImage.isLuma8])
  exact h

/-- C6: a raster image whose pixel kind has alpha and whose primary
encoding succeeds yields exactly two x-objects: the primary with the
encoded data and a `/SMask` reference to the mask, and a soft mask holding
one deflated byte per pixel from the alpha channel, FlateDecode, 8-bit
device gray, with the primary's width and height. -/
theorem c6_alpha_soft_mask (c : Codec) (alloc : ℕ) (img : RasterImage)
    (data : List ℕ) (filter : Filter) (hasColor : Bool)
    (henc : encode_image c img = .ok (data, filter, hasColor))
    (halpha : img.buf.hasAlpha = true) :
    write_raster_image c alloc img =
      ([{ ref := alloc, data := data, filter := some filter,
          width := (img.width : ℤ), height := (img.height : ℤ),
          bitsPerComponent := 8,
          colorSpace := if hasColor then .deviceRgb else .deviceGray,
          smask := some (alloc + 1) },
        { ref := alloc + 1,
          data := c.deflate (img.buf.pixelsRgba.map fun p => p.2.2.2),
          filter := some Filter.flateDecode,
          width := (img.width : ℤ), height := (img.height : ℤ),
          bitsPerComponent := 8, colorSpace := .deviceGray, smask := none }],
        alloc + 2) := by
  unfold write_raster_image
  rw [henc]
  simp [halpha, encode_alpha]

/-- A concrete one-pixel RGBA PNG. -/
def imgW : RasterImage := ⟨.png, .imageRgba8 [(1, 2, 3, 4)], 1, 1⟩

/-- Witness for C6 at a one-pixel RGBA image. -/
theorem c6_alpha_soft_mask_witness :
    write_raster_image codecW 5 imgW =
      ([{ ref := 5, data := [1, 2, 3], filter := some Filter.flateDecode,
          width := 1, height := 1, bitsPerComponent := 8,
          colorSpace := .deviceRgb, smask := some 6 },
        { ref := 6, data := [4], filter := some Filter.flateDecode,
          width := 1, height := 1, bitsPerComponent := 8,
          colorSpace := .deviceGray, smask := none }], 7) := by
  have h := c6_alpha_soft_mask codecW 5 imgW [1, 2, 3] Filter.flateDecode true
    rfl rfl
  exact h

/-- C3: an internal link whose 1-based page number `p` satisfies
`1 ≤ p ≤ n_pages` yields a GoTo annotation whose direct destination is
`page_refs[p-1]` with XYZ coordinates
`(pos.x, page_heights[p-1] - pos.y, null)`. -/
theorem c3_internal_link (page_refs : List ℕ) (page_heights : List ℚ)
    (p : ℕ) (pos : ℚ × ℚ) (rect : RectQ)
    (h1 : 1 ≤ p) (h2 : p ≤ page_refs.length)
    (h3 : page_heights.length = page_refs.length) :
    ∃ pr hgt, page_refs.get? (p - 1) = some pr ∧
      page_heights.get? (p - 1) = some hgt ∧
      annotationFor page_refs page_heights (.internal p pos, rect) =
        some ⟨rect, .goto pr pos.1 (hgt - pos.2) none⟩ := by
  have hlt : p - 1 < page_refs.length := by omega
  have hlt2 : p - 1 < page_heights.length := by omega
  refine ⟨page_refs.get ⟨p - 1, hlt⟩, page_heights.get ⟨p - 1, hlt2⟩,
    List.get?_eq_get hlt, List.get?_eq_get hlt2, ?_⟩
  unfold annotationFor
  dsimp only
  rw [List.get?_eq_get hlt, List.get?_eq_get hlt2]

/-- Witness for C3: page 2 of a two-page document. -/
theorem c3_internal_link_witness :
    ∃ pr hgt, [10, 11].get? (2 - 1) = some pr ∧
      ([100, 200] : List ℚ).get? (2 - 1) = some hgt ∧
      annotationFor [10, 11] [100, 200] (.internal 2 (5, 30), ⟨0, 1, 2, 3⟩) =
        some ⟨⟨0, 1, 2, 3⟩, .goto pr 5 (hgt - 30) none⟩ :=
  c3_internal_link [10, 11] [100, 200] 2 (5, 30) ⟨0, 1, 2, 3⟩
    (by decide) (by decide) (by decide)

/-- C8: when the subsetter returns no buffer, the font file stream holds
the DEFLATE of the original, unmodified face bytes; `fontFileData` is
total, so writing the stream never fails. -/
theorem c8_subset_fallback (deflateF : List ℕ → List ℕ)
    (subsetF : List ℕ → ℕ → List ℕ → Option (List ℕ))
    (buffer : List ℕ) (index : ℕ) (glyphs : List ℕ)
    (h : subsetF buffer index glyphs = none) :
    fontFileData deflateF subsetF buffer index glyphs = deflateF buffer := by
  unfold fontFileData
  rw [h]
  rfl

/-- Witness for C8 with an always-failing subsetter and identity DEFLATE. -/
theorem c8_subset_fallback_witness :
    fontFileData (fun l => l) (fun _ _ _ => none) [1, 2, 3] 0 [7] = [1, 2, 3] :=
  c8_subset_fallback (fun l => l) (fun _ _ _ => none) [1, 2, 3] 0 [7] rfl

theorem maxStep_ne_none (acc : Option (ℕ × ℕ)) (y : ℕ × ℕ) :
    maxStep acc y ≠ none := by
  cases acc with
  | none => simp [maxStep]
  | some x =>
      simp only [maxStep]
      split <;> simp

theorem maxStep_fold_spec (l : List (ℕ × ℕ)) :
    ∀ (acc : Option (ℕ × ℕ)) (m : ℕ × ℕ), l.foldl maxStep acc = some m →
      (m ∈ l ∨ acc = some m) ∧ (∀ p ∈ l, p.2 ≤ m.2) ∧
      (∀ x, acc = some x → x.2 ≤ m.2) := by
  induction l with
  | nil =>
      intro acc m hm
      refine ⟨Or.inr hm, by simp, ?_⟩
      intro x hx
      rw [hx] at hm
      injection hm with hm
      rw [hm]
  | cons y l ih =>
      intro acc m hm
      rw [List.foldl_cons] at hm
      obtain ⟨hmem, hbound, hacc⟩ := ih (maxStep acc y) m hm
      have hystep : ∀ z, maxStep acc y = some z → y.2 ≤ z.2 := by
        intro z hz
        cases acc with
        | none =>
            injection hz with hz
            subst hz
            exact le_refl _
        | some x =>
            simp only [maxStep] at hz
            split at hz <;> injection hz with hz <;> subst hz <;> omega
      have hy : y.2 ≤ m.2 := by
        cases hstep : maxStep acc y with
        | none => exact absurd hstep (maxStep_ne_none acc y)
        | some z =>
            exact le_trans (hystep z hstep) (hacc z hstep)
      refine ⟨?_, ?_, ?_⟩
      · rcases hmem with hmem | hmem
        · exact Or.inl (List.mem_cons_of_mem y hmem)
        · cases acc with
          | none =>
              injection hmem with hmem
              subst hmem
              exact Or.inl (List.mem_cons_self y l)
          | some x =>
              simp only [maxStep] at hmem
              split at hmem
              · exact Or.inr hmem
              · injection hmem with hmem
                subst hmem
                exact Or.inl (List.mem_cons_self y l)
      · intro p hp
        rcases List.mem_cons.mp hp with rfl | hp
        · exact hy
        · exact hbound p hp
      · intro x hx
        by_cases hlt : y.2 < x.2
        · refine hacc x ?_
          rw [hx]
          simp only [maxStep]
          rw [if_pos hlt]
        · have hstep : maxStep acc y = some y := by
            rw [hx]
            simp only [maxStep]
            rw [if_neg hlt]
          have hym := hacc y hstep
          omega

theorem maxStep_fold_unique (l : List (ℕ × ℕ)) :
    ∀ (acc : Option (ℕ × ℕ)) (k v : ℕ),
      (∀ p ∈ l, p ≠ (k, v) → p.2 < v) →
      ((k, v) ∈ l ∨ acc = some (k, v)) →
      (∀ x, acc = some x → x.2 ≤ v) →
      l.foldl maxStep acc = some (k, v) := by
  induction l with
  | nil =>
      intro acc k v _ hmem _
      rcases hmem with hmem | hmem
      · cases hmem
      · simpa using hmem
  | cons y l ih =>
      intro acc k v hstrict hmem hacc
      rw [List.foldl_cons]
      refine ih (maxStep acc y) k v (fun p hp => hstrict p (List.mem_cons_of_mem y hp)) ?_ ?_
      · by_cases hy : y = (k, v)
        · subst hy
          right
          cases acc with
          | none => rfl
          | some x =>
              have hxv := hacc x rfl
              have hnot : ¬((k, v).2 < x.2) := by
                simp only
                omega
              simp only [maxStep]
              rw [if_neg hnot]
        · have hylt : y.2 < v := hstrict y (List.mem_cons_self y l) hy
          rcases hmem with hmem | hmem
          · rcases List.mem_cons.mp hmem with heq | hmem
            · exact absurd heq.symm hy
            · exact Or.inl hmem
          · right
            rw [hmem]
            simp only [maxStep]
            rw [if_pos hylt]
      · intro x hx
        cases acc with
        | none =>
            simp only [maxStep] at hx
            injection hx with hx
            rw [← hx]
            by_cases hy : y = (k, v)
            · subst hy; exact le_refl v
            · exact le_of_lt (hstrict y (List.mem_cons_self y l) hy)
        | some a =>
            have ha := hacc a rfl
            simp only [maxStep] at hx
            split at hx <;> injection hx with hx <;> rw [← hx]
            · exact ha
            · by_cases hy : y = (k, v)
              · subst hy; exact le_refl v
              · exact le_of_lt (hstrict y (List.mem_cons_self y l) hy)

/-- Counterexample to C9 as stated: the summed tally is iterated in hash
map order, and two orders of the same tally (a permutation pair, i.e. two
exports of the same input) can pick different document languages on a
tie — the choice is not deterministic. -/
theorem c9_language_mode_cex :
    List.Perm [((0 : ℕ), (3 : ℕ)), (1, 3)] [(1, 3), (0, 3)] ∧
    docLang [(0, 3), (1, 3)] ≠ docLang [(1, 3), (0, 3)] := by
  constructor
  · decide
  · decide

/-- C9 amended: the chosen language is always one of maximal summed count
(the last maximum in iteration order); when the maximum pair is strictly
unique the choice is order-independent (hence deterministic) and equals
the strict mode; and the viewer `Direction` is `R2L` exactly when the
chosen language's script direction is RTL. -/
theorem c9_language_mode_amended :
    (∀ (l : List (ℕ × ℕ)) m, rustMaxBy l = some m →
      m ∈ l ∧ ∀ p ∈ l, p.2 ≤ m.2) ∧
    (∀ (l : List (ℕ × ℕ)) k v, (k, v) ∈ l →
      (∀ p ∈ l, p ≠ (k, v) → p.2 < v) → rustMaxBy l = some (k, v)) ∧
    (∀ (l1 l2 : List (ℕ × ℕ)) k v, l1.Perm l2 → (k, v) ∈ l1 →
      (∀ p ∈ l1, p ≠ (k, v) → p.2 < v) → docLang l1 = docLang l2) ∧
    (∀ (dir : ℕ → Dir) (l : List (ℕ × ℕ)),
      docDir dir l = DirectionPref.r2l ↔ (docLang l).map dir = some Dir.rtl) := by
  have hmax : ∀ (l : List (ℕ × ℕ)) m, rustMaxBy l = some m →
      m ∈ l ∧ ∀ p ∈ l, p.2 ≤ m.2 := by
    intro l m hm
    obtain ⟨hmem, hbound, _⟩ := maxStep_fold_spec l none m hm
    rcases hmem with hmem | hmem
    · exact ⟨hmem, hbound⟩
    · exact absurd hmem (by simp)
  have huniq : ∀ (l : List (ℕ × ℕ)) k v, (k, v) ∈ l →
      (∀ p ∈ l, p ≠ (k, v) → p.2 < v) → rustMaxBy l = some (k, v) := by
    intro l k v hmem hstrict
    exact maxStep_fold_unique l none k v hstrict (Or.inl hmem)
      (by intro x hx; exact Option.noConfusion hx)
  refine ⟨hmax, huniq, ?_, ?_⟩
  · intro l1 l2 k v hperm hmem hstrict
    have h1 := huniq l1 k v hmem hstrict
    have h2 := huniq l2 k v (hperm.mem_iff.mp hmem)
      (fun p hp hne => hstrict p (hperm.mem_iff.mpr hp) hne)
    unfold docLang
    rw [h1, h2]
  · intro dir l
    unfold docDir
    by_cases hc : (docLang l).map dir = some Dir.rtl
    · rw [if_pos hc]
      exact ⟨fun _ => hc, fun _ => rfl⟩
    · rw [if_neg hc]
      constructor
      · intro h
        exact absurd h (by simp)
      · intro h
        exact absurd h hc

/-- Witness for C9 amended: a strictly unique maximum is chosen regardless
of order. -/
theorem c9_language_mode_amended_witness :
    rustMaxBy [(0, 1), (1, 3)] = some (1, 3) ∧
    docLang [(0, 1), (1, 3)] = docLang [(1, 3), (0, 1)] :=
  ⟨c9_language_mode_amended.2.1 [(0, 1), (1, 3)] 1 3 (by decide) (by decide),
    c9_language_mode_amended.2.2.1 [(0, 1), (1, 3)] [(1, 3), (0, 1)] 1 3
      (by decide) (by decide) (by decide)⟩

end TypstPdf
